import Mathlib

/-!
Verification of `mnest.py` (simple ellipsoidal nested sampling).

The Python source is shallowly embedded here.  Python floats are modelled as
real numbers (`ℝ`), numpy arrays of shape `(m, d)` as functions
`Fin m → Fin d → ℝ`, and square matrices as `Matrix (Fin d) (Fin d) ℝ`.
The file is Python 2, so `/` on two `int` values is floor division; this is
modelled with `Int.fdiv`.  `np.linalg.inv` is modelled by Mathlib's
nonsingular matrix inverse, and `np.det` (a slip for `np.linalg.det`, per the
docstring of `ellipsoid_volume`) by the determinant.

Randomness is modelled by passing the drawn values explicitly: `randsphere`
receives the normal vector `z` and the uniform scalar `r` it consumes, the
engine receives the initial unit-cube positions and, for each iteration, the
stream of candidate points that the (external) ellipsoid sampler would
produce.  The likelihood and prior callbacks are opaque function parameters,
exactly as in the source.
-/

open Matrix

namespace Mnest

/-! ## bounding_ellipsoid (mnest.py lines 18-81) -/

/-- Line 70: `x_mean = np.mean(x, axis=0)`. -/
noncomputable def x_mean (m d : ℕ) (x : Fin m → Fin d → ℝ) : Fin d → ℝ :=
  fun j => (∑ i, x i j) / m

/-- Line 71: `x_prime = x - x_mean`. -/
noncomputable def x_prime (m d : ℕ) (x : Fin m → Fin d → ℝ) : Fin m → Fin d → ℝ :=
  fun i j => x i j - x_mean m d x j

/-- Line 72: `cov = np.cov(x_prime, rowvar=0)`, the unbiased sample
covariance (divides by `m - 1`). -/
noncomputable def sampleCov (m d : ℕ) (x : Fin m → Fin d → ℝ) :
    Matrix (Fin d) (Fin d) ℝ :=
  Matrix.of fun a b => (∑ i, x_prime m d x i a * x_prime m d x i b) / ((m : ℝ) - 1)

/-- Lines 76-78: the Mahalanobis-squared factors
`factors[i] = x_primeᵢ · cov⁻¹ · x_primeᵢ`. -/
noncomputable def factors (m d : ℕ) (x : Fin m → Fin d → ℝ) : Fin m → ℝ :=
  fun i => x_prime m d x i ⬝ᵥ (sampleCov m d x)⁻¹.mulVec (x_prime m d x i)

/-- Line 79: `f = np.sqrt(np.max(factors))`.  (`np.max` over the nonempty
array of factors; note the source takes a square root here.) -/
noncomputable def enlargeF (m d : ℕ) (x : Fin (m + 1) → Fin d → ℝ) : ℝ :=
  Real.sqrt (Finset.univ.sup' Finset.univ_nonempty (factors (m + 1) d x))

/-- Lines 70-81: `bounding_ellipsoid` returns `(f * cov, x_mean)`. -/
noncomputable def bounding_ellipsoid (m d : ℕ) (x : Fin (m + 1) → Fin d → ℝ) :
    Matrix (Fin d) (Fin d) ℝ × (Fin d → ℝ) :=
  (enlargeF m d x • sampleCov (m + 1) d x, x_mean (m + 1) d x)

/-! ## ellipsoid_volume (lines 83-110) -/

/-- The dimension-dependent proportionality constant of lines 96-108: the
volume of the unit ball, accumulated as the product of `2/i * pi` over the
even (resp. odd, with an extra factor `2`) values `i ≤ ndim`. -/
noncomputable def unitBallC : ℕ → ℝ
  | 0 => 1
  | 1 => 2
  | n + 2 => 2 / (n + 2) * Real.pi * unitBallC n

/-- Lines 94-110: `vol = np.sqrt(np.det(scaled_cov))` times the unit-ball
constant. -/
noncomputable def ellipsoid_volume {d : ℕ} (scaled_cov : Matrix (Fin d) (Fin d) ℝ) : ℝ :=
  Real.sqrt scaled_cov.det * unitBallC d

/-- Lines 169-172 of `bounding_ellipsoids`: when the fitted volume is below
the floor, scale the shape matrix by `(min_vol / ellipsoid_vol) ** (1./ndim)`. -/
noncomputable def enlargeToMinVol {d : ℕ} (shape : Matrix (Fin d) (Fin d) ℝ)
    (min_vol : ℝ) : Matrix (Fin d) (Fin d) ℝ :=
  if ellipsoid_volume shape < min_vol then
    ((min_vol / ellipsoid_volume shape) ^ ((1 : ℝ) / d)) • shape
  else shape

/-! ## randsphere and sample_ellipsoid (lines 12-16 and 112-139) -/

/-- Lines 12-16: `randsphere(n)` returns `z * rand**(1/n) / sqrt(sum(z**2))`,
with `z` the vector of standard-normal draws and `r` the uniform draw it
consumes. -/
noncomputable def randsphere (n : ℕ) (z : Fin n → ℝ) (r : ℝ) : Fin n → ℝ :=
  fun i => z i * r ^ ((1 : ℝ) / n) / Real.sqrt (∑ j, z j ^ 2)

/-- Lines 128-134: `sample_ellipsoid` maps the ball sample `s` through the
scaled eigenvector matrix `vs` and recenters: `np.dot(vs, s) + x_mean`.
The eigendecomposition itself (line 129-130) is external (`np.linalg.eig`);
for a symmetric positive-semi-definite `scaled_cov` it yields `vs` with
`scaled_cov = vs * vsᵀ`, which is how the shape matrix enters the theorems. -/
noncomputable def sample_ellipsoid {n : ℕ} (vs : Matrix (Fin n) (Fin n) ℝ)
    (x_mean : Fin n → ℝ) (s : Fin n → ℝ) : Fin n → ℝ :=
  vs.mulVec s + x_mean

/-! ## The nested sampling engine `nest` (lines 227-408)

The engine state carries the three parallel live-point arrays, the sample
records, the accumulators and the stopping-rule bookkeeping, exactly the
mutable locals of `nest`.  The live-point count `nobj` is `n + 1` so that
`np.argmin` is defined.  The ellipsoid fit of line 346 calls a name
(`ellipsoid`) that does not exist in the module; the candidate draws that it
and `sample_ellipsoid` would feed the rejection loop are therefore supplied
as an explicit per-iteration stream. -/

/-- The mutable state of the main loop of `nest` (lines 295-316). -/
structure NestState (npar nobj : ℕ) where
  objects_u : Fin nobj → Fin npar → ℝ
  objects_v : Fin nobj → Fin npar → ℝ
  objects_logl : Fin nobj → ℝ
  samples_parvals : List (Fin npar → ℝ)
  samples_logwt : List ℝ
  h : ℝ
  logz : ℝ
  logwidth : ℝ
  loglcalls : ℕ
  ndecl : ℕ
  logwt_old : Option ℝ

attribute [ext] NestState

/-- `np.logaddexp(a, b) = log(exp a + exp b)` (line 331). -/
noncomputable def logaddexp (a b : ℝ) : ℝ := Real.log (Real.exp a + Real.exp b)

/-- Scan of index list keeping the first index with the strictly smallest
value seen so far. -/
noncomputable def argminList {m : ℕ} (f : Fin m → ℝ) : List (Fin m) → Fin m → Fin m
  | [], best => best
  | i :: rest, best => argminList f rest (if f i < f best then i else best)

/-- Line 327: `worst = np.argmin(objects_logl)`, the first index attaining
the minimum. -/
noncomputable def argminFin {m : ℕ} (f : Fin (m + 1) → ℝ) : Fin (m + 1) :=
  argminList f (List.finRange (m + 1)) 0

/-- Lines 350-363: the rejection loop.  Walks the candidate stream; a
candidate with any component `< 0` or `> 1` is skipped (`continue`) before
`prior` is called; otherwise `prior` and `loglikelihood` run, `loglcalls` is
incremented, and the candidate is accepted iff `logl > loglstar`.  Returns
the accepted `(u, v, logl)` together with the number of `loglikelihood`
calls made, or `none` when the stream is exhausted (the Python loop would
spin forever). -/
noncomputable def replaceLoop {npar : ℕ} (prior : (Fin npar → ℝ) → Fin npar → ℝ)
    (loglike : (Fin npar → ℝ) → ℝ) (loglstar : ℝ) :
    List (Fin npar → ℝ) → Option ((Fin npar → ℝ) × (Fin npar → ℝ) × ℝ × ℕ)
  | [] => none
  | u :: rest =>
    if (∃ j, u j < 0) ∨ (∃ j, u j > 1) then replaceLoop prior loglike loglstar rest
    else
      let v := prior u
      let logl := loglike v
      if loglstar < logl then some (u, v, logl, 1)
      else
        match replaceLoop prior loglike loglstar rest with
        | none => none
        | some (u2, v2, l2, c) => some (u2, v2, l2, c + 1)

/-- The list of arguments on which line 354 `v = prior(u)` executes during
one rejection loop: every candidate passing the unit-cube test up to and
including the first accepted one. -/
noncomputable def priorCalls {npar : ℕ} (prior : (Fin npar → ℝ) → Fin npar → ℝ)
    (loglike : (Fin npar → ℝ) → ℝ) (loglstar : ℝ) :
    List (Fin npar → ℝ) → List (Fin npar → ℝ)
  | [] => []
  | u :: rest =>
    if (∃ j, u j < 0) ∨ (∃ j, u j > 1) then priorCalls prior loglike loglstar rest
    else if loglstar < loglike (prior u) then [u]
    else u :: priorCalls prior loglike loglstar rest

/-- One iteration of the main loop (lines 326-376): pick the worst live
point, fold its weight into `logz` and `h`, record it, replace it through
the rejection loop, shrink `logwidth` by `1/nobj`, and update the
decline counter `ndecl`; the returned flag is the `break` decision
`ndecl > 10 and ndecl > it / 6` (integer division).  On the first iteration
`logwt_old` is `None` and the Python 2 comparison `logwt < None` is `False`,
so `ndecl` resets to 0. -/
noncomputable def nestStep {npar n : ℕ} (prior : (Fin npar → ℝ) → Fin npar → ℝ)
    (loglike : (Fin npar → ℝ) → ℝ) (it : ℕ) (st : NestState npar (n + 1))
    (cands : List (Fin npar → ℝ)) : Option (NestState npar (n + 1) × Bool) :=
  let worst := argminFin st.objects_logl
  let logwt := st.logwidth + st.objects_logl worst
  let logz_new := logaddexp st.logz logwt
  let h_new := Real.exp (logwt - logz_new) * st.objects_logl worst +
      Real.exp (st.logz - logz_new) * (st.h + st.logz) - logz_new
  let loglstar := st.objects_logl worst
  match replaceLoop prior loglike loglstar cands with
  | none => none
  | some (u, v, logl, calls) =>
    let ndecl2 : ℕ := match st.logwt_old with
      | none => 0
      | some w => if logwt < w then st.ndecl + 1 else 0
    some ({ objects_u := Function.update st.objects_u worst u
            objects_v := Function.update st.objects_v worst v
            objects_logl := Function.update st.objects_logl worst logl
            samples_parvals := st.samples_parvals ++ [st.objects_v worst]
            samples_logwt := st.samples_logwt ++ [logwt]
            h := h_new
            logz := logz_new
            logwidth := st.logwidth - 1 / ((n : ℝ) + 1)
            loglcalls := st.loglcalls + calls
            ndecl := ndecl2
            logwt_old := some logwt },
          decide (10 < ndecl2 ∧ it / 6 < ndecl2))

/-- The decline-counter update of lines 370-373 read off a state: the
counter increments when the iteration's `logwt` is strictly below the
stored previous `logwt` and resets to 0 otherwise (also on the first
iteration, where `logwt_old` is `None`).  This is the same computation
`nestStep` performs; it is named so lemmas can speak about it. -/
noncomputable def ndeclUpdate {npar n : ℕ} (st : NestState npar (n + 1)) : ℕ :=
  match st.logwt_old with
  | none => 0
  | some w =>
    if st.logwidth + st.objects_logl (argminFin st.objects_logl) < w then
      st.ndecl + 1
    else 0

/-- The `for it in range(maxiter)` loop (line 317), driven by the remaining
fuel.  Returns the final state, `niter = it + 1` (line 399), and whether the
loop ended through the `break` of line 375 rather than by exhausting
`maxiter`. -/
noncomputable def nestIter {npar n : ℕ} (prior : (Fin npar → ℝ) → Fin npar → ℝ)
    (loglike : (Fin npar → ℝ) → ℝ) (stream : ℕ → List (Fin npar → ℝ)) :
    ℕ → ℕ → NestState npar (n + 1) → Option (NestState npar (n + 1) × ℕ × Bool)
  | 0, it, st => some (st, it, false)
  | fuel + 1, it, st =>
    match nestStep prior loglike it st (stream it) with
    | none => none
    | some (st2, brk) =>
      if brk then some (st2, it + 1, true)
      else nestIter prior loglike stream fuel (it + 1) st2

/-- Lines 295-315: initialization.  The initial `objects_u` are the
`np.random.random` draws (supplied explicitly); `prior` and `loglikelihood`
are evaluated on each row, `logwidth` starts at `log(1 - exp(-1/nobj))`,
`logz` at `-1e300`, `h` at `0`, and `loglcalls` at `nobj`. -/
noncomputable def initState {npar n : ℕ} (prior : (Fin npar → ℝ) → Fin npar → ℝ)
    (loglike : (Fin npar → ℝ) → ℝ) (init_u : Fin (n + 1) → Fin npar → ℝ) :
    NestState npar (n + 1) :=
  { objects_u := init_u
    objects_v := fun i => prior (init_u i)
    objects_logl := fun i => loglike (prior (init_u i))
    samples_parvals := []
    samples_logwt := []
    h := 0
    logz := -(1e300)
    logwidth := Real.log (1 - Real.exp (-(1 / ((n : ℝ) + 1))))
    loglcalls := n + 1
    ndecl := 0
    logwt_old := none }

/-! ## The finalize-phase log width (line 387)

`logwidth = -len(samples_parvals) / nobj - math.log(nobj)`: both operands of
the first `/` are Python 2 ints, so it is floor division (`Int.fdiv`). -/

noncomputable def finalLogwidth (nsamples nobj : ℕ) : ℝ :=
  ((Int.fdiv (-(nsamples : ℤ)) (nobj : ℤ) : ℤ) : ℝ) - Real.log nobj

/-- Lines 388-396: fold each remaining live point into the accumulators
with the per-point final log width and append it as a sample record. -/
noncomputable def finalizeFold {npar n : ℕ} (st : NestState npar (n + 1)) :
    NestState npar (n + 1) :=
  let logwidth := finalLogwidth st.samples_parvals.length (n + 1)
  (List.finRange (n + 1)).foldl (fun acc i =>
    let logwt := logwidth + st.objects_logl i
    let logz_new := logaddexp acc.logz logwt
    { acc with
      logz := logz_new
      h := Real.exp (logwt - logz_new) * st.objects_logl i +
           Real.exp (acc.logz - logz_new) * (acc.h + acc.logz) - logz_new
      samples_parvals := acc.samples_parvals ++ [st.objects_v i]
      samples_logwt := acc.samples_logwt ++ [logwt] })
    { st with logwidth := logwidth }

/-! ## The stopping rule as the specification words it

The spec sentence behind claim C4 reads: "track a run-length counter of
iterations where `logwt` failed to exceed the previous iteration's `logwt`"
(i.e. increment when `logwt ≤ logwt_old`), "if this run-length exceeds both
a fixed threshold (10) and a fraction of the elapsed iteration count
(iteration/6), transition to FINALIZE".  The following definitions follow
those words (not the source) so they can be compared with the source's
behaviour; they consume the per-iteration `logwt` trace that the engine
records in `samples_logwt`. -/

/-- One update of the spec's run-length counter: state is (previous logwt,
counter); a `logwt` that fails to exceed the previous one increments the
counter, otherwise it resets; the first iteration has no previous value. -/
noncomputable def specFoldStep : Option ℝ × ℕ → ℝ → Option ℝ × ℕ := fun p w =>
  (some w,
    match p.1 with
    | none => 0
    | some prev => if w ≤ prev then p.2 + 1 else 0)

/-- The spec's counter after consuming a `logwt` trace. -/
noncomputable def specNdeclAfter (l : List ℝ) : ℕ :=
  (l.foldl specFoldStep (none, 0)).2

/-- The spec's stopping condition fires on a trace when at some 0-based
iteration `k` the counter exceeds both 10 and `k / 6`. -/
noncomputable def specTransitionCond (l : List ℝ) : Prop :=
  ∃ k, k < l.length ∧ 10 < specNdeclAfter (l.take (k + 1)) ∧
    k / 6 < specNdeclAfter (l.take (k + 1))

/-! ## Concrete engine instances used to exercise the theorems

Instance "C": two live points in one dimension, the identity prior,
`loglikelihood(v) = v[0]`, initial positions `0` and `1/2`, and a single
candidate `3/4`; one iteration runs and accepts the candidate.

Instance "E": one live point in one dimension, the identity prior,
`loglikelihood(v) = v[0]/(1 - v[0])`, initial position `0`, and at
iteration `i` the single candidate `(i+1)/(i+2)` (log-likelihood `i+1`).
Every iteration succeeds and `logwt` is exactly constant along the run,
which exercises the equality case of the stopping rule. -/

noncomputable def prC : (Fin 1 → ℝ) → Fin 1 → ℝ := fun u => u

noncomputable def llC : (Fin 1 → ℝ) → ℝ := fun v => v 0

noncomputable def initUC : Fin 2 → Fin 1 → ℝ := fun i _ => if i = 0 then 0 else 1 / 2

noncomputable def candC : Fin 1 → ℝ := fun _ => 3 / 4

noncomputable def streamC : ℕ → List (Fin 1 → ℝ) := fun _ => [candC]

noncomputable def initC : NestState 1 2 := initState prC llC initUC

/-- The state after the single iteration of instance "C". -/
noncomputable def stC1 : NestState 1 2 :=
  { objects_u := Function.update initC.objects_u 0 candC
    objects_v := Function.update initC.objects_v 0 (prC candC)
    objects_logl := Function.update initC.objects_logl 0 (llC (prC candC))
    samples_parvals := initC.samples_parvals ++ [initC.objects_v 0]
    samples_logwt := initC.samples_logwt ++ [initC.logwidth + initC.objects_logl 0]
    h := Real.exp (initC.logwidth + initC.objects_logl 0 -
           logaddexp initC.logz (initC.logwidth + initC.objects_logl 0)) *
           initC.objects_logl 0 +
         Real.exp (initC.logz -
           logaddexp initC.logz (initC.logwidth + initC.objects_logl 0)) *
           (initC.h + initC.logz) -
         logaddexp initC.logz (initC.logwidth + initC.objects_logl 0)
    logz := logaddexp initC.logz (initC.logwidth + initC.objects_logl 0)
    logwidth := initC.logwidth - 1 / (((1 : ℕ) : ℝ) + 1)
    loglcalls := initC.loglcalls + 1
    ndecl := 0
    logwt_old := some (initC.logwidth + initC.objects_logl 0) }

noncomputable def llE : (Fin 1 → ℝ) → ℝ := fun v => v 0 / (1 - v 0)

noncomputable def uValE : ℕ → ℝ := fun i => (i + 1) / (i + 2)

noncomputable def prevUE : ℕ → ℝ
  | 0 => 0
  | i + 1 => uValE i

noncomputable def initUE : Fin 1 → Fin 1 → ℝ := fun _ _ => 0

noncomputable def streamE : ℕ → List (Fin 1 → ℝ) := fun it => [fun _ => uValE it]

/-- The initial `logwidth` of instance "E" (`nobj = 1`), i.e.
`log(1 - exp(-1))`; every iteration's `logwt` equals this value. -/
noncomputable def LE : ℝ := Real.log (1 - Real.exp (-(1 / (((0 : ℕ) : ℝ) + 1))))

noncomputable def logzE : ℕ → ℝ
  | 0 => -(1e300)
  | i + 1 => logaddexp (logzE i) LE

noncomputable def hE : ℕ → ℝ
  | 0 => 0
  | i + 1 =>
    Real.exp (LE - logaddexp (logzE i) LE) * i +
      Real.exp (logzE i - logaddexp (logzE i) LE) * (hE i + logzE i) -
      logaddexp (logzE i) LE

/-- The state of instance "E" after `i` iterations. -/
noncomputable def stExp : ℕ → NestState 1 1 := fun i =>
  { objects_u := fun _ _ => prevUE i
    objects_v := fun _ _ => prevUE i
    objects_logl := fun _ => (i : ℝ)
    samples_parvals := (List.range i).map fun k _ => prevUE k
    samples_logwt := List.replicate i LE
    h := hE i
    logz := logzE i
    logwidth := LE - i
    loglcalls := 1 + i
    ndecl := 0
    logwt_old := if i = 0 then none else some LE }

/-! ## Concrete inputs for the ellipsoid components -/

/-- Three one-dimensional points `0, 0, 3`, on which the fitted ellipsoid
fails to contain its input. -/
noncomputable def X3 : Fin 3 → Fin 1 → ℝ := fun i _ => if i.val = 2 then 3 else 0

/-- A one-dimensional shape matrix `[[1]]`. -/
noncomputable def M1 : Matrix (Fin 1) (Fin 1) ℝ := Matrix.of fun _ _ => 1

noncomputable def vsW : Matrix (Fin 1) (Fin 1) ℝ := Matrix.of fun _ _ => 2

noncomputable def centerW : Fin 1 → ℝ := fun _ => 0

noncomputable def zW : Fin 1 → ℝ := fun _ => 1

/-- A candidate sitting exactly on the upper boundary of the unit cube:
the unit-cube test of line 352 does not discard it. -/
noncomputable def oneCandC : Fin 1 → ℝ := fun _ => 1

noncomputable def cIU : Fin 1 → Fin 1 → ℝ := fun _ _ => 0

/-! # Theorems -/

/-! ## Generic helper lemmas -/

theorem matrix_inv_one_by_one (A : Matrix (Fin 1) (Fin 1) ℝ) :
    A⁻¹ = Matrix.of fun _ _ => (A 0 0)⁻¹ := by
  rw [Matrix.inv_def, Matrix.adjugate_fin_one, Matrix.det_fin_one]
  ext a b
  have ha : a = 0 := Subsingleton.elim _ _
  have hb : b = 0 := Subsingleton.elim _ _
  subst ha; subst hb
  simp [Ring.inverse_eq_inv']

/-! ## Claim C2: the FINALIZE log width (code bug)

Line 387 computes `-len(samples_parvals) / nobj` with two Python 2 ints,
which is floor division, while the derivation in the comment just above it
(lines 383-386) and the claim use exact real division `-niter/nobj`.
At `niter = 5`, `nobj = 50` the code folds `-1 - log 50` into each record
instead of `-1/10 - log 50`. -/

/-- Claim C2: the per-live-point final log width the code computes for a run
with `niter = 5`, `nobj = 50` differs from the claimed exact-real-division
value `-niter/nobj - log(nobj)`. -/
theorem finalLogwidth_floor_division_bug :
    finalLogwidth 5 50 ≠ -((5 : ℝ) / 50) - Real.log 50 := by
  unfold finalLogwidth
  rw [show Int.fdiv (-((5 : ℕ) : ℤ)) ((50 : ℕ) : ℤ) = -1 by decide]
  intro heq
  have h2 : ((-1 : ℤ) : ℝ) = -((5 : ℝ) / 50) := by linarith
  norm_num at h2

/-! ## Claim C3: the minimum-volume enlargement (code bug)

Line 171 scales the shape matrix by `(min_vol/vol)**(1./ndim)`.  Since the
volume of `c • M` is `c^(ndim/2) * volume M`, the resulting volume is
`sqrt(min_vol * vol)`, which is strictly below `min_vol` whenever
`vol < min_vol` — yet line 172 records `ellipsoid_vol = min_vol` and the
comment on line 169 says the ellipse now has at least the minimum volume.
Reaching the floor would need the exponent `2/ndim`. -/

/-- Claim C3: the enlargement step does not establish the volume floor —
for the 1-dimensional shape `[[1]]` (volume 2) and floor `min_vol = 8`,
scaling by `(min_vol/vol)^(1/ndim)` produces volume 4, still below the
floor, contrary to the claim (and to line 172's own bookkeeping). -/
theorem enlargeToMinVol_misses_floor :
    ellipsoid_volume M1 < 8 ∧ ellipsoid_volume (enlargeToMinVol M1 8) = 4 ∧
      ellipsoid_volume (enlargeToMinVol M1 8) < 8 := by
  have hdet : M1.det = 1 := by simp [M1, Matrix.det_fin_one]
  have hv : ellipsoid_volume M1 = 2 := by
    unfold ellipsoid_volume
    rw [hdet, Real.sqrt_one]
    norm_num [unitBallC]
  have hscale : enlargeToMinVol M1 8 = (4 : ℝ) • M1 := by
    unfold enlargeToMinVol
    rw [hv, if_pos (by norm_num)]
    norm_num
  have hv4 : ellipsoid_volume (enlargeToMinVol M1 8) = 4 := by
    rw [hscale]
    unfold ellipsoid_volume
    rw [Matrix.det_smul, hdet]
    have hcard : Fintype.card (Fin 1) = 1 := by simp
    rw [hcard]
    rw [show ((4 : ℝ) ^ 1 * 1) = (2 : ℝ) ^ 2 by norm_num]
    rw [Real.sqrt_sq (by norm_num : (0 : ℝ) ≤ 2)]
    norm_num [unitBallC]
  exact ⟨by rw [hv]; norm_num, hv4, by rw [hv4]; norm_num⟩

/-! ## Claim C1: the bounding-ellipsoid fit (code bug)

The claim (and the docstring of `bounding_ellipsoid`, lines 29-33) says the
returned shape is `f·C` with `f = max dᵢ`, so every input point has
Mahalanobis-squared distance at most 1 under the returned shape.  Line 79
instead computes `f = sqrt(max dᵢ)`.  On the three 1-d points `0, 0, 3` the
factors are `1/3, 1/3, 4/3`, the code's shape is `sqrt(4/3)·3 = 2√3`, and
the third point's distance is `4/(2√3) = 2√3/3 > 1`: it lies outside the
returned ellipsoid. -/

theorem X3_mean_eval : x_mean 3 1 X3 = fun _ => 1 := by
  funext j
  simp [x_mean, X3, Fin.sum_univ_three]

theorem X3_cov_eval : sampleCov 3 1 X3 = Matrix.of fun _ _ => 3 := by
  ext a b
  simp [sampleCov, x_prime, X3_mean_eval, X3, Fin.sum_univ_three]
  norm_num

theorem X3_factor_eval (i : Fin 3) :
    factors 3 1 X3 i = if i.val = 2 then 4 / 3 else 1 / 3 := by
  unfold factors
  rw [X3_cov_eval, matrix_inv_one_by_one]
  fin_cases i <;>
    (simp [Matrix.mulVec, Matrix.dotProduct, x_prime, X3_mean_eval, X3,
      Fin.sum_univ_one]
     try norm_num)

theorem X3_sup_eval :
    Finset.univ.sup' Finset.univ_nonempty (factors 3 1 X3) = 4 / 3 := by
  apply le_antisymm
  · apply Finset.sup'_le
    intro i _
    rw [X3_factor_eval]
    split <;> norm_num
  · have h := Finset.le_sup' (factors 3 1 X3) (Finset.mem_univ (2 : Fin 3))
    rwa [X3_factor_eval] at h

/-- Claim C1: on the input points `X3` the ellipsoid returned by
`bounding_ellipsoid` does not contain the third input point — its
Mahalanobis-squared distance under the returned shape exceeds 1,
contradicting the fitter's own contract. -/
theorem bounding_ellipsoid_point_outside :
    1 < (fun j => X3 2 j - (bounding_ellipsoid 2 1 X3).2 j) ⬝ᵥ
      ((bounding_ellipsoid 2 1 X3).1)⁻¹.mulVec
        (fun j => X3 2 j - (bounding_ellipsoid 2 1 X3).2 j) := by
  have hshape : (bounding_ellipsoid 2 1 X3).1 =
      Matrix.of fun _ _ => Real.sqrt (4 / 3) * 3 := by
    show enlargeF 2 1 X3 • sampleCov 3 1 X3 = _
    unfold enlargeF
    rw [X3_sup_eval, X3_cov_eval]
    ext a b
    simp [Matrix.smul_apply]
  have hmean : (bounding_ellipsoid 2 1 X3).2 = fun _ => 1 := X3_mean_eval
  rw [hshape, hmean, matrix_inv_one_by_one]
  have hpos : (0 : ℝ) < Real.sqrt (4 / 3) := Real.sqrt_pos.mpr (by norm_num)
  have hlt : Real.sqrt (4 / 3) < 4 / 3 := by
    rw [Real.sqrt_lt' (by norm_num)]
    norm_num
  simp [Matrix.mulVec, Matrix.dotProduct, X3, Fin.sum_univ_one]
  rw [show Real.sqrt 4 = 2 by
    rw [show (4 : ℝ) = 2 ^ 2 by norm_num]
    exact Real.sqrt_sq (by norm_num)]
  have hs : Real.sqrt 3 ^ 2 = 3 := Real.sq_sqrt (by norm_num)
  have hsp : (0 : ℝ) < Real.sqrt 3 := Real.sqrt_pos.mpr (by norm_num)
  nlinarith [hs, hsp]

/-! ## Claim C8: the ellipsoid sampler never leaves the ellipsoid -/

/-- The ball sample of `randsphere` has squared norm `r^(2/n) ≤ 1`. -/
theorem randsphere_sq_le_one {n : ℕ} (z : Fin n → ℝ) (r : ℝ)
    (hz : 0 < ∑ j, z j ^ 2) (hr0 : 0 ≤ r) (hr1 : r ≤ 1) :
    randsphere n z r ⬝ᵥ randsphere n z r ≤ 1 := by
  have hRsq : Real.sqrt (∑ j, z j ^ 2) ^ 2 = ∑ j, z j ^ 2 := Real.sq_sqrt hz.le
  have hRpos : 0 < Real.sqrt (∑ j, z j ^ 2) := Real.sqrt_pos.mpr hz
  have hc0 : 0 ≤ r ^ ((1 : ℝ) / n) := Real.rpow_nonneg hr0 _
  have hc1 : r ^ ((1 : ℝ) / n) ≤ 1 := Real.rpow_le_one hr0 hr1 (by positivity)
  have hterm : ∀ i, randsphere n z r i * randsphere n z r i =
      z i ^ 2 * ((r ^ ((1 : ℝ) / n)) ^ 2 / Real.sqrt (∑ j, z j ^ 2) ^ 2) := by
    intro i
    unfold randsphere
    field_simp
    ring
  have hdot : randsphere n z r ⬝ᵥ randsphere n z r =
      (∑ j, z j ^ 2) *
        ((r ^ ((1 : ℝ) / n)) ^ 2 / Real.sqrt (∑ j, z j ^ 2) ^ 2) := by
    unfold Matrix.dotProduct
    rw [Finset.sum_congr rfl fun i _ => hterm i, ← Finset.sum_mul]
  rw [hdot, hRsq]
  have hcc : (∑ j, z j ^ 2) * ((r ^ ((1 : ℝ) / n)) ^ 2 / ∑ j, z j ^ 2) =
      (r ^ ((1 : ℝ) / n)) ^ 2 := by
    field_simp
  rw [hcc]
  calc (r ^ ((1 : ℝ) / n)) ^ 2 ≤ 1 ^ 2 := by
        exact pow_le_pow_left₀ hc0 hc1 2
    _ = 1 := one_pow 2

/-- Claim C8: a point produced by `sample_ellipsoid` from a ball draw (any
normal vector `z` with positive squared norm and uniform scalar
`r ∈ [0, 1]`) satisfies the ellipsoid inequality for the shape matrix
`vs * vsᵀ` the eigendecomposition reassembles, whenever that shape is
invertible. -/
theorem sample_ellipsoid_inside {n : ℕ} (vs : Matrix (Fin n) (Fin n) ℝ)
    (center z : Fin n → ℝ) (r : ℝ) (hz : 0 < ∑ j, z j ^ 2) (hr0 : 0 ≤ r)
    (hr1 : r ≤ 1) (hdet : IsUnit (vs * vs.transpose).det) :
    (sample_ellipsoid vs center (randsphere n z r) - center) ⬝ᵥ
      ((vs * vs.transpose)⁻¹).mulVec
        (sample_ellipsoid vs center (randsphere n z r) - center) ≤ 1 := by
  have hvs : IsUnit vs.det := by
    rw [Matrix.det_mul, Matrix.det_transpose] at hdet
    exact isUnit_of_mul_isUnit_left hdet
  have hvst : IsUnit vs.transpose.det := by
    rw [Matrix.det_transpose]
    exact hvs
  have hx : sample_ellipsoid vs center (randsphere n z r) - center =
      vs.mulVec (randsphere n z r) := by
    unfold sample_ellipsoid
    abel
  rw [hx, Matrix.mul_inv_rev, Matrix.mulVec_mulVec, Matrix.mul_assoc,
    Matrix.nonsing_inv_mul vs hvs, Matrix.mul_one]
  rw [show vs.mulVec (randsphere n z r) =
      Matrix.vecMul (randsphere n z r) vs.transpose from
    (Matrix.vecMul_transpose vs (randsphere n z r)).symm]
  rw [Matrix.dotProduct_mulVec, Matrix.vecMul_vecMul,
    Matrix.mul_nonsing_inv _ hvst, Matrix.vecMul_one]
  exact randsphere_sq_le_one z r hz hr0 hr1

/-- Witness for C8: concrete one-dimensional instance with `vs = [[2]]`
(shape `[[4]]`), `center = 0`, `z = (1)`, `r = 1/2`; all hypotheses hold and
the sampled point satisfies the ellipsoid inequality. -/
theorem sample_ellipsoid_inside_witness :
    ((0 : ℝ) < ∑ j, zW j ^ 2 ∧ (0 : ℝ) ≤ 1 / 2 ∧ (1 / 2 : ℝ) ≤ 1 ∧
      IsUnit (vsW * vsW.transpose).det) ∧
    (sample_ellipsoid vsW centerW (randsphere 1 zW (1 / 2)) - centerW) ⬝ᵥ
      ((vsW * vsW.transpose)⁻¹).mulVec
        (sample_ellipsoid vsW centerW (randsphere 1 zW (1 / 2)) - centerW) ≤ 1 := by
  have hz : (0 : ℝ) < ∑ j, zW j ^ 2 := by
    norm_num [zW, Fin.sum_univ_one]
  have hdet : IsUnit (vsW * vsW.transpose).det := by
    have h4 : (vsW * vsW.transpose).det = 4 := by
      simp [Matrix.det_fin_one, Matrix.mul_apply, Matrix.transpose_apply, vsW,
        Fin.sum_univ_one]
      norm_num
    rw [h4]
    exact isUnit_iff_ne_zero.mpr (by norm_num)
  exact ⟨⟨hz, by norm_num, by norm_num, hdet⟩,
    sample_ellipsoid_inside vsW centerW zW (1 / 2) hz (by norm_num)
      (by norm_num) hdet⟩

/-! ## Engine lemmas: the rejection loop -/

/-- The rejection loop only ever accepts a candidate whose log-likelihood
strictly exceeds `loglstar` (the `if logl > loglstar` of line 359). -/
theorem replaceLoop_gt {npar : ℕ} (prior : (Fin npar → ℝ) → Fin npar → ℝ)
    (loglike : (Fin npar → ℝ) → ℝ) (loglstar : ℝ) (cands : List (Fin npar → ℝ))
    {u v : Fin npar → ℝ} {logl : ℝ} {c : ℕ}
    (h : replaceLoop prior loglike loglstar cands = some (u, v, logl, c)) :
    loglstar < logl := by
  induction cands generalizing u v logl c with
  | nil => simp [replaceLoop] at h
  | cons u0 rest ih =>
    simp only [replaceLoop] at h
    split_ifs at h with h1 h2
    · exact ih h
    · simp only [Option.some.injEq, Prod.mk.injEq] at h
      obtain ⟨rfl, rfl, rfl, rfl⟩ := h
      exact h2
    · rcases hr : replaceLoop prior loglike loglstar rest with _ | ⟨u2, v2, l2, c2⟩ <;>
        rw [hr] at h
      · simp at h
      · simp only [Option.some.injEq, Prod.mk.injEq] at h
        obtain ⟨rfl, rfl, rfl, rfl⟩ := h
        exact ih hr

/-- The call counter returned by the rejection loop equals the number of
`prior`/`loglikelihood` evaluations it made — one per candidate passing the
unit-cube test up to the accepted one — and is at least 1. -/
theorem replaceLoop_calls {npar : ℕ} (prior : (Fin npar → ℝ) → Fin npar → ℝ)
    (loglike : (Fin npar → ℝ) → ℝ) (loglstar : ℝ) (cands : List (Fin npar → ℝ))
    {u v : Fin npar → ℝ} {logl : ℝ} {c : ℕ}
    (h : replaceLoop prior loglike loglstar cands = some (u, v, logl, c)) :
    c = (priorCalls prior loglike loglstar cands).length ∧ 1 ≤ c := by
  induction cands generalizing u v logl c with
  | nil => simp [replaceLoop] at h
  | cons u0 rest ih =>
    simp only [replaceLoop] at h
    simp only [priorCalls]
    split_ifs at h with h1 h2
    · rw [if_pos h1]
      exact ih h
    · rw [if_neg h1, if_pos h2]
      simp only [Option.some.injEq, Prod.mk.injEq] at h
      obtain ⟨rfl, rfl, rfl, rfl⟩ := h
      simp
    · rw [if_neg h1, if_neg h2]
      rcases hr : replaceLoop prior loglike loglstar rest with _ | ⟨u2, v2, l2, c2⟩ <;>
        rw [hr] at h
      · simp at h
      · simp only [Option.some.injEq, Prod.mk.injEq] at h
        obtain ⟨rfl, rfl, rfl, rfl⟩ := h
        obtain ⟨hc, hc1⟩ := ih hr
        constructor
        · rw [List.length_cons, hc]
        · omega

/-! ## Engine lemmas: one iteration -/

/-- Everything one successful `nestStep` does, read off the record it
builds. -/
theorem nestStep_spec {npar n : ℕ} (prior : (Fin npar → ℝ) → Fin npar → ℝ)
    (loglike : (Fin npar → ℝ) → ℝ) (it : ℕ) (st : NestState npar (n + 1))
    (cands : List (Fin npar → ℝ)) {st2 : NestState npar (n + 1)} {brk : Bool}
    (h : nestStep prior loglike it st cands = some (st2, brk)) :
    ∃ u v logl calls,
      replaceLoop prior loglike (st.objects_logl (argminFin st.objects_logl))
          cands = some (u, v, logl, calls) ∧
      st2.objects_u = Function.update st.objects_u (argminFin st.objects_logl) u ∧
      st2.objects_v = Function.update st.objects_v (argminFin st.objects_logl) v ∧
      st2.objects_logl =
        Function.update st.objects_logl (argminFin st.objects_logl) logl ∧
      st2.logwidth = st.logwidth - 1 / ((n : ℝ) + 1) ∧
      st2.loglcalls = st.loglcalls + calls ∧
      (brk = true ↔ (10 < st2.ndecl ∧ it / 6 < st2.ndecl)) := by
  simp only [nestStep] at h
  rcases hr : replaceLoop prior loglike
      (st.objects_logl (argminFin st.objects_logl)) cands with _ | ⟨u, v, logl, calls⟩ <;>
    rw [hr] at h
  · simp at h
  · simp only [Option.some.injEq, Prod.mk.injEq] at h
    obtain ⟨hrec, hbrk⟩ := h
    subst hrec
    refine ⟨u, v, logl, calls, hr ▸ rfl, rfl, rfl, rfl, rfl, rfl, ?_⟩
    rw [← hbrk]
    simp [decide_eq_true_eq]

/-- Claim C5: the point written into the live set at the index of the
eliminated worst point has log-likelihood strictly greater than the
eliminated point's (rejection loop of lines 350-363 accepts only
`logl > loglstar`). -/
theorem replacement_strictly_better {npar n : ℕ}
    (prior : (Fin npar → ℝ) → Fin npar → ℝ) (loglike : (Fin npar → ℝ) → ℝ)
    (it : ℕ) (st : NestState npar (n + 1)) (cands : List (Fin npar → ℝ))
    {st2 : NestState npar (n + 1)} {brk : Bool}
    (h : nestStep prior loglike it st cands = some (st2, brk)) :
    st.objects_logl (argminFin st.objects_logl) <
      st2.objects_logl (argminFin st.objects_logl) := by
  obtain ⟨u, v, logl, calls, hr, -, -, hlogl, -, -, -⟩ :=
    nestStep_spec prior loglike it st cands h
  rw [hlogl, Function.update_same]
  exact replaceLoop_gt prior loglike _ cands hr

/-- Claim C9: a successful iteration mutates only the entry at the worst
index in all three live-point arrays (the entry there genuinely changes,
since the stored log-likelihood strictly increases); the arrays are total
functions on `Fin (n+1)`, so the live set's size is `nobj` throughout. -/
theorem live_set_frame {npar n : ℕ}
    (prior : (Fin npar → ℝ) → Fin npar → ℝ) (loglike : (Fin npar → ℝ) → ℝ)
    (it : ℕ) (st : NestState npar (n + 1)) (cands : List (Fin npar → ℝ))
    {st2 : NestState npar (n + 1)} {brk : Bool}
    (h : nestStep prior loglike it st cands = some (st2, brk)) :
    (∀ j, j ≠ argminFin st.objects_logl →
      st2.objects_u j = st.objects_u j ∧ st2.objects_v j = st.objects_v j ∧
        st2.objects_logl j = st.objects_logl j) ∧
    st2.objects_logl (argminFin st.objects_logl) ≠
      st.objects_logl (argminFin st.objects_logl) := by
  obtain ⟨u, v, logl, calls, hr, hu, hv, hlogl, -, -, -⟩ :=
    nestStep_spec prior loglike it st cands h
  constructor
  · intro j hj
    rw [hu, hv, hlogl]
    exact ⟨Function.update_noteq hj _ _, Function.update_noteq hj _ _,
      Function.update_noteq hj _ _⟩
  · rw [hlogl, Function.update_same]
    exact ne_of_gt (replaceLoop_gt prior loglike _ cands hr)

/-! ## Engine lemmas: the main loop -/

/-- Along any successful run, `logwidth` drops by exactly `1/nobj` per
iteration performed. -/
theorem nestIter_logwidth {npar n : ℕ}
    (prior : (Fin npar → ℝ) → Fin npar → ℝ) (loglike : (Fin npar → ℝ) → ℝ)
    (stream : ℕ → List (Fin npar → ℝ)) (fuel it : ℕ)
    (st : NestState npar (n + 1)) {st' : NestState npar (n + 1)} {n' : ℕ}
    {b : Bool} (h : nestIter prior loglike stream fuel it st = some (st', n', b)) :
    it ≤ n' ∧
      st'.logwidth = st.logwidth - ((n' - it : ℕ) : ℝ) / ((n : ℝ) + 1) := by
  induction fuel generalizing it st with
  | zero =>
    simp only [nestIter, Option.some.injEq, Prod.mk.injEq] at h
    obtain ⟨rfl, rfl, rfl⟩ := h
    simp
  | succ fuel ih =>
    simp only [nestIter] at h
    rcases hs : nestStep prior loglike it st (stream it) with _ | ⟨st2, brk⟩ <;>
      rw [hs] at h
    · simp at h
    · obtain ⟨u, v, logl, calls, -, -, -, -, hw, -, -⟩ :=
        nestStep_spec prior loglike it st (stream it) hs
      cases brk with
      | true =>
        simp only [if_true, Option.some.injEq, Prod.mk.injEq] at h
        obtain ⟨rfl, rfl, rfl⟩ := h
        refine ⟨Nat.le_succ it, ?_⟩
        rw [hw]
        simp
      | false =>
        simp only [if_false] at h
        obtain ⟨h1, h2⟩ := ih (it + 1) st2 h
        refine ⟨le_trans (Nat.le_succ it) h1, ?_⟩
        rw [h2, hw, Nat.cast_sub h1, Nat.cast_sub (le_trans (Nat.le_succ it) h1)]
        push_cast
        ring

/-- Claim C7: starting from the engine's initialization, after `n'`
iterations `logwidth` equals `log(1 - e^(-1/nobj)) - n'/nobj`. -/
theorem logwidth_formula {npar n : ℕ}
    (prior : (Fin npar → ℝ) → Fin npar → ℝ) (loglike : (Fin npar → ℝ) → ℝ)
    (stream : ℕ → List (Fin npar → ℝ)) (u0 : Fin (n + 1) → Fin npar → ℝ)
    (fuel : ℕ) {st' : NestState npar (n + 1)} {n' : ℕ} {b : Bool}
    (h : nestIter prior loglike stream fuel 0 (initState prior loglike u0) =
      some (st', n', b)) :
    st'.logwidth =
      Real.log (1 - Real.exp (-(1 / ((n : ℝ) + 1)))) - (n' : ℝ) / ((n : ℝ) + 1) := by
  obtain ⟨-, hw⟩ :=
    nestIter_logwidth prior loglike stream fuel 0 (initState prior loglike u0) h
  rw [hw]
  simp [initState]

/-- Along any successful run, `loglcalls` grows by at least one per
iteration performed. -/
theorem nestIter_calls {npar n : ℕ}
    (prior : (Fin npar → ℝ) → Fin npar → ℝ) (loglike : (Fin npar → ℝ) → ℝ)
    (stream : ℕ → List (Fin npar → ℝ)) (fuel it : ℕ)
    (st : NestState npar (n + 1)) {st' : NestState npar (n + 1)} {n' : ℕ}
    {b : Bool} (h : nestIter prior loglike stream fuel it st = some (st', n', b)) :
    st.loglcalls + (n' - it) ≤ st'.loglcalls := by
  induction fuel generalizing it st with
  | zero =>
    simp only [nestIter, Option.some.injEq, Prod.mk.injEq] at h
    obtain ⟨rfl, rfl, rfl⟩ := h
    omega
  | succ fuel ih =>
    simp only [nestIter] at h
    rcases hs : nestStep prior loglike it st (stream it) with _ | ⟨st2, brk⟩ <;>
      rw [hs] at h
    · simp at h
    · obtain ⟨u, v, logl, calls, hr, -, -, -, -, hc, -⟩ :=
        nestStep_spec prior loglike it st (stream it) hs
      have hc1 : 1 ≤ calls := (replaceLoop_calls prior loglike _ _ hr).2
      cases brk with
      | true =>
        simp only [if_true, Option.some.injEq, Prod.mk.injEq] at h
        obtain ⟨rfl, rfl, rfl⟩ := h
        omega
      | false =>
        simp only [if_false] at h
        have h2 := ih (it + 1) st2 h
        have h3 := (nestIter_logwidth prior loglike stream fuel (it + 1) st2 h).1
        omega

/-- Claim C10: for every completed run, `ncalls`, which starts at `nobj`
(one likelihood call per initial live point, line 311), satisfies
`ncalls ≥ nobj + niter`; and per iteration it grows by exactly the number
of `loglikelihood` evaluations of that iteration's rejection loop —
candidates discarded by the unit-cube test contribute nothing. -/
theorem ncalls_accounting {npar n : ℕ}
    (prior : (Fin npar → ℝ) → Fin npar → ℝ) (loglike : (Fin npar → ℝ) → ℝ)
    (stream : ℕ → List (Fin npar → ℝ)) (u0 : Fin (n + 1) → Fin npar → ℝ)
    (fuel : ℕ) {st' : NestState npar (n + 1)} {n' : ℕ} {b : Bool}
    (h : nestIter prior loglike stream fuel 0 (initState prior loglike u0) =
      some (st', n', b)) :
    ((n + 1) + n' ≤ st'.loglcalls) ∧
    ∀ it (st : NestState npar (n + 1)) cands (st2 : NestState npar (n + 1))
      (brk : Bool), nestStep prior loglike it st cands = some (st2, brk) →
        st2.loglcalls = st.loglcalls +
          (priorCalls prior loglike
            (st.objects_logl (argminFin st.objects_logl)) cands).length := by
  constructor
  · have h1 := nestIter_calls prior loglike stream fuel 0
      (initState prior loglike u0) h
    have h2 : (initState prior loglike u0).loglcalls = n + 1 := rfl
    omega
  · intro it st cands st2 brk hs
    obtain ⟨u, v, logl, calls, hr, -, -, -, -, hc, -⟩ :=
      nestStep_spec prior loglike it st cands hs
    rw [hc, (replaceLoop_calls prior loglike _ _ hr).1]

/-! ## Claim C4 (amended): the stopping rule with a strict decline test -/

/-- Claim C4 as the code implements it: a run signals the FINALIZE
transition through the stopping rule (the returned flag) exactly when, after
its last iteration `n' - 1`, the run-length counter of consecutive
iterations with `logwt` strictly below the previous iteration's `logwt`
exceeds both 10 and `(n' - 1)/6` (integer division).  The precondition says
the incoming state does not already satisfy the stopping condition (true of
the engine's initialization, whose counter is 0). -/
theorem stopping_rule_strict {npar n : ℕ}
    (prior : (Fin npar → ℝ) → Fin npar → ℝ) (loglike : (Fin npar → ℝ) → ℝ)
    (stream : ℕ → List (Fin npar → ℝ)) (fuel it : ℕ)
    (st : NestState npar (n + 1)) {st' : NestState npar (n + 1)} {n' : ℕ}
    {b : Bool} (hpre : ¬(10 < st.ndecl ∧ (it - 1) / 6 < st.ndecl))
    (h : nestIter prior loglike stream fuel it st = some (st', n', b)) :
    b = true ↔ (10 < st'.ndecl ∧ (n' - 1) / 6 < st'.ndecl) := by
  induction fuel generalizing it st with
  | zero =>
    simp only [nestIter, Option.some.injEq, Prod.mk.injEq] at h
    obtain ⟨rfl, rfl, rfl⟩ := h
    simp only [Bool.false_eq_true, false_iff]
    exact hpre
  | succ fuel ih =>
    simp only [nestIter] at h
    rcases hs : nestStep prior loglike it st (stream it) with _ | ⟨st2, brk⟩ <;>
      rw [hs] at h
    · simp at h
    · obtain ⟨u, v, logl, calls, -, -, -, -, -, -, hbrk⟩ :=
        nestStep_spec prior loglike it st (stream it) hs
      cases brk with
      | true =>
        simp only [if_true, Option.some.injEq, Prod.mk.injEq] at h
        obtain ⟨rfl, rfl, rfl⟩ := h
        simp only [true_iff]
        have hcond := hbrk.mp rfl
        simpa using hcond
      | false =>
        simp only [if_false] at h
        have hpre2 : ¬(10 < st2.ndecl ∧ (it + 1 - 1) / 6 < st2.ndecl) := by
          intro hcond
          have : (false : Bool) = true := hbrk.mpr (by simpa using hcond)
          simp at this
        exact ih (it + 1) st2 hpre2 h

/-! ## Claim C6: the domain of the arguments passed to `prior`

Line 352 discards a candidate only when some component is `< 0` or `> 1`,
so a component exactly equal to 1 passes the test and reaches `prior`, even
though the documented domain (docstring lines 238-239) is `[0, 1)`.  The
closure that does hold is the closed cube `[0, 1]`. -/

/-- Claim C6 (amended): every vector the engine passes to `prior` has all
components in the closed interval `[0, 1]` — the initial draws (which the
generator contract puts in `[0, 1)`) and every rejection-loop candidate
surviving the unit-cube test of line 352. -/
theorem prior_args_in_closed_cube {npar : ℕ}
    (prior : (Fin npar → ℝ) → Fin npar → ℝ) (loglike : (Fin npar → ℝ) → ℝ)
    (loglstar : ℝ) (cands : List (Fin npar → ℝ)) {nn : ℕ}
    (u0 : Fin nn → Fin npar → ℝ)
    (hinit : ∀ i j, 0 ≤ u0 i j ∧ u0 i j < 1) :
    (∀ i j, 0 ≤ u0 i j ∧ u0 i j ≤ 1) ∧
    (∀ u ∈ priorCalls prior loglike loglstar cands, ∀ j, 0 ≤ u j ∧ u j ≤ 1) := by
  constructor
  · exact fun i j => ⟨(hinit i j).1, le_of_lt (hinit i j).2⟩
  · induction cands with
    | nil => simp [priorCalls]
    | cons u0' rest ih =>
      simp only [priorCalls]
      split_ifs with h1 h2
      · exact ih
      · intro u hu j
        rw [List.mem_singleton] at hu
        subst hu
        push_neg at h1
        exact ⟨h1.1 j, h1.2 j⟩
      · intro u hu j
        rcases List.mem_cons.mp hu with rfl | hu2
        · push_neg at h1
          exact ⟨h1.1 j, h1.2 j⟩
        · exact ih u hu2 j

/-- Counterexample for C6 as stated: with the single candidate whose only
component is exactly 1, `prior` is called on a vector outside `[0, 1)` —
the unit-cube test does not discard it. -/
theorem prior_args_open_cube_cex :
    ¬ (∀ u ∈ priorCalls prC llC 0 [oneCandC], ∀ j, 0 ≤ u j ∧ u j < 1) := by
  intro hall
  have hlist : priorCalls prC llC 0 [oneCandC] = [oneCandC] := by
    simp only [priorCalls]
    rw [if_neg, if_pos]
    · show (0 : ℝ) < llC (prC oneCandC)
      norm_num [llC, prC, oneCandC]
    · intro hc
      rcases hc with ⟨j, hj⟩ | ⟨j, hj⟩ <;> norm_num [oneCandC] at hj
  have h1 := (hall oneCandC (by rw [hlist]; exact List.mem_singleton_self _) 0).2
  norm_num [oneCandC] at h1

/-- Witness for C6 (amended): the concrete candidate `3/4` passes the cube
test, is handed to `prior`, and indeed lies in `[0, 1]`. -/
theorem prior_args_in_closed_cube_witness :
    (0 : ℝ) ≤ candC 0 ∧ candC 0 ≤ 1 := by
  have hinit : ∀ i j, (0 : ℝ) ≤ cIU i j ∧ cIU i j < 1 := by
    intro i j
    norm_num [cIU]
  have hlist : priorCalls prC llC 0 [candC] = [candC] := by
    simp only [priorCalls]
    rw [if_neg, if_pos]
    · show (0 : ℝ) < llC (prC candC)
      norm_num [llC, prC, candC]
    · intro hc
      rcases hc with ⟨j, hj⟩ | ⟨j, hj⟩ <;> norm_num [candC] at hj
  exact (prior_args_in_closed_cube prC llC 0 [candC] cIU hinit).2 candC
    (by rw [hlist]; exact List.mem_singleton_self _) 0

/-! ## Evaluating instance "C": one iteration with two live points -/

theorem argminC_eval : argminFin initC.objects_logl = 0 := by
  have h0 : initC.objects_logl 0 = 0 := rfl
  have h1 : initC.objects_logl 1 = 1 / 2 := rfl
  unfold argminFin
  rw [show List.finRange 2 = [0, 1] by decide]
  simp only [argminList]
  rw [if_neg (lt_irrefl _), h0, h1, if_neg (by norm_num : ¬((1 : ℝ) / 2 < 0))]

theorem replaceC_eval :
    replaceLoop prC llC (initC.objects_logl 0) [candC] =
      some (candC, candC, 3 / 4, 1) := by
  simp only [replaceLoop]
  rw [if_neg, if_pos]
  · rfl
  · show initC.objects_logl 0 < llC (prC candC)
    norm_num [initC, initState, initUC, llC, prC, candC]
  · intro hc
    rcases hc with ⟨j, hj⟩ | ⟨j, hj⟩ <;> norm_num [candC] at hj

theorem stepC_eq : nestStep prC llC 0 initC [candC] = some (stC1, false) := by
  simp only [nestStep]
  rw [argminC_eval, replaceC_eval]
  rfl

theorem runC_eq : nestIter prC llC streamC 1 0 initC = some (stC1, 1, false) := by
  simp only [nestIter, streamC]
  rw [stepC_eq]
  rfl

/-- Witness for C5: in the concrete one-iteration run, the replacement
point's log-likelihood strictly exceeds the eliminated worst point's. -/
theorem replacement_strictly_better_witness :
    initC.objects_logl (argminFin initC.objects_logl) <
      stC1.objects_logl (argminFin initC.objects_logl) :=
  replacement_strictly_better prC llC 0 initC [candC] stepC_eq

/-- Witness for C9: in the concrete one-iteration run, the live point at
index 1 is untouched in all three arrays while the worst entry changes. -/
theorem live_set_frame_witness :
    (stC1.objects_u 1 = initC.objects_u 1 ∧ stC1.objects_v 1 = initC.objects_v 1 ∧
      stC1.objects_logl 1 = initC.objects_logl 1) ∧
    stC1.objects_logl (argminFin initC.objects_logl) ≠
      initC.objects_logl (argminFin initC.objects_logl) := by
  have h := live_set_frame prC llC 0 initC [candC] stepC_eq
  refine ⟨h.1 1 ?_, h.2⟩
  rw [argminC_eval]
  decide

/-- Witness for C7: after the concrete one-iteration run with `nobj = 2`,
`logwidth` equals `log(1 - e^(-1/2)) - 1/2`. -/
theorem logwidth_formula_witness :
    stC1.logwidth = Real.log (1 - Real.exp (-(1 / (((1 : ℕ) : ℝ) + 1)))) -
      ((1 : ℕ) : ℝ) / (((1 : ℕ) : ℝ) + 1) :=
  logwidth_formula prC llC streamC initUC 1 runC_eq

/-- Witness for C10: after the concrete one-iteration run, `ncalls` is at
least `nobj + niter = 3`, and the iteration incremented it by exactly the
number of in-cube candidates evaluated. -/
theorem ncalls_accounting_witness :
    ((1 + 1) + 1 ≤ stC1.loglcalls) ∧
    stC1.loglcalls = initC.loglcalls +
      (priorCalls prC llC (initC.objects_logl (argminFin initC.objects_logl))
        [candC]).length := by
  have h := ncalls_accounting prC llC streamC initUC 1 runC_eq
  exact ⟨h.1, h.2 0 initC [candC] stC1 false stepC_eq⟩

/-- Witness for C4 (amended): the concrete one-iteration run does not break
early, and correspondingly its final strict-decline counter fails the
stopping condition. -/
theorem stopping_rule_strict_witness :
    (false = true) ↔ (10 < stC1.ndecl ∧ (1 - 1) / 6 < stC1.ndecl) := by
  have hpre : ¬(10 < initC.ndecl ∧ (0 - 1) / 6 < initC.ndecl) := by
    rw [show initC.ndecl = 0 from rfl]
    omega
  exact stopping_rule_strict prC llC streamC 1 0 initC hpre runC_eq

/-! ## Evaluating instance "E": a run whose `logwt` trace is constant -/

/-- With a successful rejection loop, `nestStep` returns exactly the record
its definition builds. -/
theorem nestStep_eq_build {npar n : ℕ}
    (prior : (Fin npar → ℝ) → Fin npar → ℝ) (loglike : (Fin npar → ℝ) → ℝ)
    (it : ℕ) (st : NestState npar (n + 1)) (cands : List (Fin npar → ℝ))
    (u v : Fin npar → ℝ) (logl : ℝ) (calls : ℕ)
    (hr : replaceLoop prior loglike (st.objects_logl (argminFin st.objects_logl))
      cands = some (u, v, logl, calls)) :
    nestStep prior loglike it st cands = some
      ({ objects_u := Function.update st.objects_u (argminFin st.objects_logl) u
         objects_v := Function.update st.objects_v (argminFin st.objects_logl) v
         objects_logl :=
           Function.update st.objects_logl (argminFin st.objects_logl) logl
         samples_parvals :=
           st.samples_parvals ++ [st.objects_v (argminFin st.objects_logl)]
         samples_logwt := st.samples_logwt ++
           [st.logwidth + st.objects_logl (argminFin st.objects_logl)]
         h := Real.exp (st.logwidth + st.objects_logl (argminFin st.objects_logl) -
                logaddexp st.logz
                  (st.logwidth + st.objects_logl (argminFin st.objects_logl))) *
                st.objects_logl (argminFin st.objects_logl) +
              Real.exp (st.logz - logaddexp st.logz
                  (st.logwidth + st.objects_logl (argminFin st.objects_logl))) *
                (st.h + st.logz) -
              logaddexp st.logz
                (st.logwidth + st.objects_logl (argminFin st.objects_logl))
         logz := logaddexp st.logz
           (st.logwidth + st.objects_logl (argminFin st.objects_logl))
         logwidth := st.logwidth - 1 / ((n : ℝ) + 1)
         loglcalls := st.loglcalls + calls
         ndecl := ndeclUpdate st
         logwt_old := some
           (st.logwidth + st.objects_logl (argminFin st.objects_logl)) },
       decide (10 < ndeclUpdate st ∧ it / 6 < ndeclUpdate st)) := by
  simp only [nestStep]
  rw [hr]
  rfl

theorem argminE (f : Fin 1 → ℝ) : argminFin f = 0 := Fin.eq_zero _

theorem uValE_nonneg (i : ℕ) : 0 ≤ uValE i := by
  unfold uValE
  positivity

theorem uValE_le_one (i : ℕ) : uValE i ≤ 1 := by
  unfold uValE
  rw [div_le_one (by positivity)]
  linarith

theorem llE_uValE (i : ℕ) : llE (fun _ => uValE i) = (i : ℝ) + 1 := by
  unfold llE uValE
  show ((i : ℝ) + 1) / ((i : ℝ) + 2) / (1 - ((i : ℝ) + 1) / ((i : ℝ) + 2)) =
    (i : ℝ) + 1
  have h2 : ((i : ℝ) + 2) ≠ 0 := by positivity
  have h3 : 1 - ((i : ℝ) + 1) / ((i : ℝ) + 2) = 1 / ((i : ℝ) + 2) := by
    field_simp
    ring
  rw [h3]
  field_simp

theorem replaceE (i : ℕ) :
    replaceLoop prC llE ((i : ℝ)) [fun _ => uValE i] =
      some (fun _ => uValE i, fun _ => uValE i, (i : ℝ) + 1, 1) := by
  simp only [replaceLoop]
  rw [if_neg, if_pos]
  · have hll : llE (prC fun _ : Fin 1 => uValE i) = (i : ℝ) + 1 := llE_uValE i
    rw [hll]
    rfl
  · have hll : llE (prC fun _ : Fin 1 => uValE i) = (i : ℝ) + 1 := llE_uValE i
    rw [hll]
    exact lt_add_one _
  · rintro (⟨j, hj⟩ | ⟨j, hj⟩)
    · exact absurd hj (not_lt.mpr (uValE_nonneg i))
    · exact absurd hj (not_lt.mpr (uValE_le_one i))

theorem initE_eq : initState prC llE initUE = stExp 0 := by
  refine NestState.ext rfl rfl ?_ rfl rfl rfl rfl ?_ rfl rfl rfl
  · funext i
    show (0 : ℝ) / (1 - 0) = ((0 : ℕ) : ℝ)
    norm_num
  · show LE = LE - ((0 : ℕ) : ℝ)
    simp

theorem stepE (i : ℕ) :
    nestStep prC llE i (stExp i) [fun _ => uValE i] =
      some (stExp (i + 1), false) := by
  have hr : replaceLoop prC llE
      ((stExp i).objects_logl (argminFin (stExp i).objects_logl))
      [fun _ => uValE i] =
      some (fun _ => uValE i, fun _ => uValE i, (i : ℝ) + 1, 1) := by
    rw [argminE]
    exact replaceE i
  rw [nestStep_eq_build prC llE i (stExp i) [fun _ => uValE i] _ _ _ _ hr]
  rw [argminE]
  have hlw : (stExp i).logwidth + (stExp i).objects_logl 0 = LE := by
    show LE - (i : ℝ) + (i : ℝ) = LE
    ring
  have hnd : ndeclUpdate (stExp i) = 0 := by
    cases i with
    | zero => rfl
    | succ k =>
      unfold ndeclUpdate
      rw [show (stExp (k + 1)).logwt_old = some LE from rfl]
      show (if (stExp (k + 1)).logwidth +
            (stExp (k + 1)).objects_logl (argminFin (stExp (k + 1)).objects_logl) <
            LE then (stExp (k + 1)).ndecl + 1 else 0) = 0
      rw [argminE]
      have heq : (stExp (k + 1)).logwidth + (stExp (k + 1)).objects_logl 0 = LE := by
        show LE - (((k : ℕ) + 1 : ℕ) : ℝ) + (((k : ℕ) + 1 : ℕ) : ℝ) = LE
        ring
      rw [if_neg (by rw [heq]; exact lt_irrefl LE)]
  rw [hnd, hlw]
  rw [Option.some.injEq, Prod.mk.injEq]
  refine ⟨?_, rfl⟩
  refine NestState.ext ?_ ?_ ?_ ?_ ?_ rfl rfl ?_ ?_ rfl ?_
  · funext a b
    have ha : a = 0 := Fin.eq_zero _
    subst ha
    rfl
  · funext a b
    have ha : a = 0 := Fin.eq_zero _
    subst ha
    rfl
  · funext a
    have ha : a = 0 := Fin.eq_zero _
    subst ha
    show ((i : ℝ) + 1) = ((i + 1 : ℕ) : ℝ)
    exact (Nat.cast_succ i).symm
  · show ((List.range i).map fun k _ => prevUE k) ++ [(stExp i).objects_v 0] =
      (List.range (i + 1)).map fun k _ => prevUE k
    rw [List.range_succ, List.map_append]
    rfl
  · show List.replicate i LE ++ [LE] = List.replicate (i + 1) LE
    rw [List.replicate_succ']
  · show LE - (i : ℝ) - 1 / (((0 : ℕ) : ℝ) + 1) = LE - ((i + 1 : ℕ) : ℝ)
    push_cast
    ring
  · show 1 + i + 1 = 1 + (i + 1)
    omega
  · show some LE = if i + 1 = 0 then (none : Option ℝ) else some LE
    rw [if_neg (Nat.succ_ne_zero i)]

theorem iterE (k i : ℕ) :
    nestIter prC llE streamE k i (stExp i) =
      some (stExp (i + k), i + k, false) := by
  induction k generalizing i with
  | zero => simp [nestIter]
  | succ k ih =>
    simp only [nestIter, streamE]
    rw [stepE i]
    show nestIter prC llE streamE k (i + 1) (stExp (i + 1)) =
      some (stExp (i + (k + 1)), i + (k + 1), false)
    rw [ih (i + 1), show i + 1 + k = i + (k + 1) from by omega]

theorem specFold_replicate (a : ℝ) (k : ℕ) (p : ℕ) :
    (List.replicate k a).foldl specFoldStep (some a, p) = (some a, p + k) := by
  induction k generalizing p with
  | zero => simp
  | succ k ih =>
    rw [List.replicate_succ, List.foldl_cons]
    show (List.replicate k a).foldl specFoldStep
      (some a, if a ≤ a then p + 1 else 0) = (some a, p + (k + 1))
    rw [if_pos le_rfl, ih (p + 1)]
    rw [show p + 1 + k = p + (k + 1) from by omega]

theorem specNdecl_replicate_twelve :
    specNdeclAfter (List.replicate 12 LE) = 11 := by
  unfold specNdeclAfter
  rw [show (12 : ℕ) = 11 + 1 from rfl, List.replicate_succ, List.foldl_cons]
  show ((List.replicate 11 LE).foldl specFoldStep (some LE, 0)).2 = 11
  rw [specFold_replicate]

/-- The spec-worded stopping condition fires on the constant trace of 20
identical `logwt` values (at 0-based iteration 11 the counter is 11, which
exceeds both 10 and `11/6 = 1`). -/
theorem specTransition_const_trace :
    specTransitionCond (List.replicate 20 LE) := by
  refine ⟨11, by simp, ?_, ?_⟩ <;>
    (rw [List.take_replicate, show min (11 + 1) 20 = 12 from rfl,
      specNdecl_replicate_twelve]
     norm_num)

/-- Counterexample for C4 as stated: on instance "E" with `maxiter = 20`,
the run's `logwt` trace satisfies the spec's stopping condition ("failed to
exceed the previous `logwt`", a non-strict comparison, fires by iteration
11), yet the engine — whose line 370 tests the strict `logwt < logwt_old` —
never breaks: it runs all 20 iterations and ends with the flag false.  The
claimed "exactly when" equivalence is therefore false on this run. -/
theorem stopping_rule_nonstrict_cex :
    ¬ (specTransitionCond ((stExp 20).samples_logwt) ↔
        (nestIter prC llE streamE 20 0 (initState prC llE initUE)).map
          (fun p => p.2.2) = some true) := by
  intro hiff
  have h1 : specTransitionCond ((stExp 20).samples_logwt) := by
    show specTransitionCond (List.replicate 20 LE)
    exact specTransition_const_trace
  have h2 := hiff.mp h1
  rw [initE_eq, iterE 20 0] at h2
  simp at h2

end Mnest
